import Mathlib

/-!
Verification development for the in-memory hierarchical file store and its
text-editing operation set, together with the chat tool-invocation UI layer
(`formatToolMessage`, `ToolInvocationBadge`) of the repository.

The core file-store subsystem (Tree Store, Text-Edit Engine, Undo History,
Serialization Codec, Tool Adapter Layer) is modelled from the specification;
the UI layer is translated from
`src/components/chat/formatToolMessage.ts`,
`src/components/chat/tool-invocation-types.ts` and the `ToolInvocationBadge`
component.
-/

/-- Modelled from the spec: (§7) the closed set of error kinds returned by the
core; the source repository does not ship the core's implementation. -/
inductive FsError where
  | InvalidPath
  | NotFound
  | AlreadyExists
  | CannotDeleteRoot
  | InvalidRange
  | AmbiguousMatch
  | NoMatch
  | NoHistory
  | UnsupportedCommand
  | MalformedSnapshot
deriving Repr, DecidableEq

/-- Modelled from the spec: (§3) a tree node is either a File with textual
content or a Directory with an insertion-ordered mapping from child name to
child node. -/
inductive Node where
  | file (content : String)
  | dir (children : List (String × Node))
deriving Repr

/-- Look up a child by name in a directory's ordered entry list. -/
def findChild : List (String × Node) → String → Option Node
  | [], _ => none
  | (m, c) :: rest, n => if m = n then some c else findChild rest n

/-- Replace the entry for `n` in place (preserving order), or append it. -/
def setChild : List (String × Node) → String → Node → List (String × Node)
  | [], n, x => [(n, x)]
  | (m, c) :: rest, n, x =>
    if m = n then (n, x) :: rest else (m, c) :: setChild rest n x

/-- Remove every entry named `n` from a directory's entry list. -/
def removeChild (ch : List (String × Node)) (n : String) : List (String × Node) :=
  ch.filter (fun e => e.1 ≠ n)

/-- Modelled from the spec: (§3, §4.2) resolve a path (list of segments,
root = `[]`) to the node it denotes, if any. -/
def lookup : Node → List String → Option Node
  | t, [] => some t
  | Node.file _, _ :: _ => none
  | Node.dir ch, n :: rest =>
    match findChild ch n with
    | some c => lookup c rest
    | none => none

/-- Modelled from the spec: (§4.2) place node `x` at path `p`, creating any
missing ancestor directories on demand; fails on the root path and when an
ancestor position is occupied by a File. -/
def putNode : Node → List String → Node → Except FsError Node
  | _, [], _ => .error .InvalidPath
  | Node.file _, _ :: _, _ => .error .AlreadyExists
  | Node.dir ch, n :: rest, x =>
    match rest with
    | [] => .ok (Node.dir (setChild ch n x))
    | _ :: _ =>
      match findChild ch n with
      | some c =>
        match putNode c rest x with
        | .ok c2 => .ok (Node.dir (setChild ch n c2))
        | .error e => .error e
      | none =>
        match putNode (Node.dir []) rest x with
        | .ok c2 => .ok (Node.dir (ch ++ [(n, c2)]))
        | .error e => .error e

/-- Remove the node at path `p`; `none` when `p` is the root or absent. -/
def removeNode : Node → List String → Option Node
  | _, [] => none
  | Node.file _, _ :: _ => none
  | Node.dir ch, n :: rest =>
    match rest with
    | [] =>
      match findChild ch n with
      | some _ => some (Node.dir (removeChild ch n))
      | none => none
    | _ :: _ =>
      match findChild ch n with
      | some c => (removeNode c rest).map (fun c2 => Node.dir (setChild ch n c2))
      | none => none

/-- `putNode` at this path cannot fail: the path is non-empty and every
existing proper ancestor is a Directory. -/
def canPut : Node → List String → Bool
  | _, [] => false
  | Node.file _, _ :: _ => false
  | Node.dir ch, n :: rest =>
    match rest with
    | [] => true
    | _ :: _ =>
      match findChild ch n with
      | some c => canPut c rest
      | none => true

/-- Modelled from the spec: (§4.1) a valid path segment is non-empty,
contains no separator, and is neither `.` nor `..`. -/
def validSeg (s : String) : Bool :=
  (s != "") && !(s.data.contains '/') && (s != ".") && (s != "..")

/-- Modelled from the spec: (§4.1) a valid (already normalized) path is a
non-empty list of valid segments; `[]` addresses the root. -/
def validPathB (p : List String) : Bool :=
  (!p.isEmpty) && p.all validSeg

/-- The kind of a node, as reported by `list` and `kind`. -/
inductive NodeKind where
  | file
  | directory
deriving Repr, DecidableEq

def nodeKind : Node → NodeKind
  | Node.file _ => NodeKind.file
  | Node.dir _ => NodeKind.directory

/-- Modelled from the spec: (§4.2) `createFile` fails with `AlreadyExists`
when the path is occupied and otherwise inserts a new File, creating missing
ancestor directories implicitly. -/
def createFile (t : Node) (p : List String) (c : String) : Except FsError Node :=
  if validPathB p then
    match lookup t p with
    | some _ => .error .AlreadyExists
    | none => putNode t p (Node.file c)
  else .error .InvalidPath

/-- Modelled from the spec: (§4.2) `createDirectory` with the same implicit
ancestor behavior; fails with `AlreadyExists` when the path denotes a File;
a path already denoting a Directory is left as is. -/
def createDirectory (t : Node) (p : List String) : Except FsError Node :=
  if validPathB p then
    match lookup t p with
    | some (Node.file _) => .error .AlreadyExists
    | some (Node.dir _) => .ok t
    | none => putNode t p (Node.dir [])
  else .error .InvalidPath

/-- Modelled from the spec: (§4.2) read a File's content; `NotFound` when the
path does not denote a File. -/
def readFile (t : Node) (p : List String) : Except FsError String :=
  match lookup t p with
  | some (Node.file c) => .ok c
  | _ => .error .NotFound

/-- Modelled from the spec: (§4.2) full-content replace of an existing File;
never creates implicitly. -/
def writeFile (t : Node) (p : List String) (c : String) : Except FsError Node :=
  match lookup t p with
  | some (Node.file _) => putNode t p (Node.file c)
  | _ => .error .NotFound

/-- Modelled from the spec: (§4.2) remove a File or a Directory (with all
descendants); `CannotDeleteRoot` on `[]`, `NotFound` when absent. -/
def deleteNode (t : Node) (p : List String) : Except FsError Node :=
  match p with
  | [] => .error .CannotDeleteRoot
  | _ :: _ =>
    match removeNode t p with
    | some t2 => .ok t2
    | none => .error .NotFound

/-- Modelled from the spec: (§4.2) move the node at `pOld` (with its subtree)
to `pNew`, preserving content. -/
def rename (t : Node) (pOld pNew : List String) : Except FsError Node :=
  if validPathB pOld && validPathB pNew then
    match lookup t pOld with
    | none => .error .NotFound
    | some node =>
      match lookup t pNew with
      | some _ => .error .AlreadyExists
      | none =>
        match removeNode t pOld with
        | none => .error .NotFound
        | some t1 => putNode t1 pNew node
  else .error .InvalidPath

/-- Modelled from the spec: (§4.2) ordered listing of a Directory's entries. -/
def list (t : Node) (p : List String) : Except FsError (List (String × NodeKind)) :=
  match lookup t p with
  | some (Node.dir ch) => .ok (ch.map (fun e => (e.1, nodeKind e.2)))
  | _ => .error .NotFound

/-- Number of positions at which `pat` occurs as a contiguous sublist of the
remaining input (all starting positions, end position included). -/
def countOccAux (pat : List Char) : List Char → Nat
  | [] => if pat = [] then 1 else 0
  | c :: rest =>
    (if pat.isPrefixOf (c :: rest) then 1 else 0) + countOccAux pat rest

/-- Number of occurrences of `pat` in `s`, as character sequences. -/
def countOcc (s pat : String) : Nat :=
  countOccAux pat.data s.data

/-- Replace the first occurrence of `pat` by `repl`. -/
def replaceFirstAux (pat repl : List Char) : List Char → List Char
  | [] => if pat.isEmpty then repl else []
  | c :: rest =>
    if pat.isPrefixOf (c :: rest) then repl ++ (c :: rest).drop pat.length
    else c :: replaceFirstAux pat repl rest

/-- Replace the first occurrence of `pat` in `s` by `repl`. -/
def replaceFirst (s pat repl : String) : String :=
  ⟨replaceFirstAux pat.data repl.data s.data⟩

/-- Modelled from the spec: (§4.4) the Undo History is a keyed mapping from
path to a single prior-content snapshot. -/
def History := List (List String × String)

/-- Find the recorded snapshot for a path, if any. -/
def histFind : History → List String → Option String
  | [], _ => none
  | (q, c) :: rest, p => if q = p then some c else histFind rest p

/-- Modelled from the spec: (§4.4) drop any entry for `p` (delete/rename-away
and undo's consumption of an entry). -/
def histInvalidate (h : History) (p : List String) : History :=
  h.filter (fun e => e.1 ≠ p)

/-- Modelled from the spec: (§4.4) `record` overwrites any existing entry for
`p` unconditionally. -/
def histRecord (h : History) (p : List String) (c : String) : History :=
  (p, c) :: histInvalidate h p

/-- Modelled from the spec: (§4.2–4.4) the state seen by the Text-Edit
Engine: the tree plus the per-file undo history. -/
structure EState where
  tree : Node
  history : History

/-- Modelled from the spec: (§4.3) `create` overwrites an existing File
wholesale, recording the previous content into the Undo History first; on a
fresh path it creates the File (implicit ancestors) and clears any stale
history entry. A Directory at the path is a conflict. -/
def teCreate (s : EState) (p : List String) (c : String) : Except FsError EState :=
  if validPathB p then
    match lookup s.tree p with
    | some (Node.file c0) =>
      match putNode s.tree p (Node.file c) with
      | .ok t2 => .ok ⟨t2, histRecord s.history p c0⟩
      | .error e => .error e
    | some (Node.dir _) => .error .AlreadyExists
    | none =>
      match putNode s.tree p (Node.file c) with
      | .ok t2 => .ok ⟨t2, histInvalidate s.history p⟩
      | .error e => .error e
  else .error .InvalidPath

/-- Modelled from the spec: (§4.3) `strReplace` demands exactly one occurrence
of `oldStr`; it records the current content into the Undo History and replaces
that single occurrence. -/
def teStrReplace (s : EState) (p : List String) (oldStr newStr : String) :
    Except FsError EState :=
  match lookup s.tree p with
  | some (Node.file c) =>
    match countOcc c oldStr with
    | 0 => .error .NoMatch
    | 1 =>
      match putNode s.tree p (Node.file (replaceFirst c oldStr newStr)) with
      | .ok t2 => .ok ⟨t2, histRecord s.history p c⟩
      | .error e => .error e
    | _ + 2 => .error .AmbiguousMatch
  | _ => .error .NotFound

/-- Lines of a file's content, split on the newline terminator. -/
def splitLines (c : String) : List String := c.splitOn "\n"

/-- Modelled from the spec: (§4.3) `insert` places `text` as its own line(s)
after line `line` (`0` = before the first line); out-of-range is a hard
error; the current content is recorded into the Undo History first. -/
def teInsert (s : EState) (p : List String) (line : Nat) (text : String) :
    Except FsError EState :=
  match lookup s.tree p with
  | some (Node.file c) =>
    if line > (splitLines c).length then .error .InvalidRange
    else
      match putNode s.tree p (Node.file (String.intercalate "\n"
          ((splitLines c).take line ++ splitLines text ++ (splitLines c).drop line))) with
      | .ok t2 => .ok ⟨t2, histRecord s.history p c⟩
      | .error e => .error e
  | _ => .error .NotFound

/-- Modelled from the spec: (§4.3) `undo` restores the recorded snapshot and
consumes the history entry; `NoHistory` when no entry exists for the path. -/
def teUndo (s : EState) (p : List String) : Except FsError EState :=
  match histFind s.history p with
  | none => .error .NoHistory
  | some c0 =>
    match writeFile s.tree p c0 with
    | .ok t2 => .ok ⟨t2, histInvalidate s.history p⟩
    | .error e => .error e

/-- Modelled from the spec: (§4.2–4.3) the mutating operations of the Tree
Store and the Text-Edit Engine, as one closed command type. -/
inductive MutOp where
  | createFile (p : List String) (c : String)
  | createDirectory (p : List String)
  | writeFile (p : List String) (c : String)
  | deleteNode (p : List String)
  | rename (pOld pNew : List String)
  | teCreate (p : List String) (c : String)
  | strReplace (p : List String) (oldStr newStr : String)
  | insert (p : List String) (line : Nat) (text : String)
  | undo (p : List String)

/-- Run one mutating operation on the engine state: Tree Store primitives
leave the history alone except `deleteNode`/`rename`, which invalidate the
moved-away path (§4.4); engine operations manage the history themselves. -/
def runMut : MutOp → EState → Except FsError EState
  | MutOp.createFile p c, s =>
    (createFile s.tree p c).map (fun t => ⟨t, s.history⟩)
  | MutOp.createDirectory p, s =>
    (createDirectory s.tree p).map (fun t => ⟨t, s.history⟩)
  | MutOp.writeFile p c, s =>
    (writeFile s.tree p c).map (fun t => ⟨t, s.history⟩)
  | MutOp.deleteNode p, s =>
    (deleteNode s.tree p).map (fun t => ⟨t, histInvalidate s.history p⟩)
  | MutOp.rename pOld pNew, s =>
    (rename s.tree pOld pNew).map (fun t => ⟨t, histInvalidate s.history pOld⟩)
  | MutOp.teCreate p c, s => teCreate s p c
  | MutOp.strReplace p o n, s => teStrReplace s p o n
  | MutOp.insert p line text, s => teInsert s p line text
  | MutOp.undo p, s => teUndo s p

/-- The state after attempting an operation: the new state on success, the
old state untouched on failure. -/
def applyMut (op : MutOp) (s : EState) : EState :=
  match runMut op s with
  | .ok s2 => s2
  | .error _ => s

/-- States reachable from the empty session state through the mutating
operations of §4.2–4.3. -/
inductive ReachableE : EState → Prop where
  | init : ReachableE ⟨Node.dir [], []⟩
  | step (op : MutOp) (s s2 : EState) :
      ReachableE s → runMut op s = .ok s2 → ReachableE s2

/-- Modelled from the spec: (§4.5, §6) the transport representation is a
generic nested structure; only string leaves and object nodes are recognized
File/Directory shapes. -/
inductive Snap where
  | str (s : String)
  | num (n : Int)
  | arr (items : List Snap)
  | obj (fields : List (String × Snap))
deriving Repr

mutual

/-- Modelled from the spec: (§4.5) deterministic depth-first serialization;
File becomes a string leaf, Directory an object preserving insertion order. -/
def serialize : Node → Snap
  | Node.file c => Snap.str c
  | Node.dir ch => Snap.obj (serializeEntries ch)

def serializeEntries : List (String × Node) → List (String × Snap)
  | [] => []
  | (n, t) :: rest => (n, serialize t) :: serializeEntries rest

end

mutual

/-- Modelled from the spec: (§4.5) reconstruction; fails with
`MalformedSnapshot` on an unrecognized node shape or a key containing a path
separator. -/
def deserialize : Snap → Except FsError Node
  | Snap.str c => .ok (Node.file c)
  | Snap.obj fields =>
    match deserializeEntries fields with
    | .ok entries => .ok (Node.dir entries)
    | .error e => .error e
  | Snap.num _ => .error .MalformedSnapshot
  | Snap.arr _ => .error .MalformedSnapshot

def deserializeEntries :
    List (String × Snap) → Except FsError (List (String × Node))
  | [] => .ok []
  | (n, j) :: rest =>
    if n.data.contains '/' then .error .MalformedSnapshot
    else
      match deserialize j with
      | .error e => .error e
      | .ok t =>
        match deserializeEntries rest with
        | .error e => .error e
        | .ok ts => .ok ((n, t) :: ts)

end

mutual

/-- Well-formedness of a tree: every child name is free of the path
separator (an invariant of trees built through the §4.2–4.3 operations). -/
def wfNode : Node → Bool
  | Node.file _ => true
  | Node.dir ch => wfEntries ch

def wfEntries : List (String × Node) → Bool
  | [] => true
  | (n, t) :: rest => !(n.data.contains '/') && wfNode t && wfEntries rest

end

/-! ### Tool Adapter Layer argument types

Translated from `src/components/chat/tool-invocation-types.ts`: the two
operation families' argument shapes, with their closed command unions. -/

/-- The command union of `StrReplaceEditorArgs`
(`"view" | "create" | "str_replace" | "insert" | "undo_edit"`). -/
inductive StrReplaceCommand where
  | view
  | create
  | str_replace
  | insert
  | undo_edit
deriving Repr, DecidableEq

/-- The command union of `FileManagerArgs` (`"rename" | "delete"`). -/
inductive FileManagerCommand where
  | rename
  | delete
deriving Repr, DecidableEq

/-- `StrReplaceEditorArgs`: `command` and `path` are required, the remaining
fields optional. -/
structure StrReplaceEditorArgs where
  command : StrReplaceCommand
  path : String
  file_text : Option String
  insert_line : Option Int
  new_str : Option String
  old_str : Option String
  view_range : Option (Int × Int)

/-- `FileManagerArgs`: `command` and `path` are required, `new_path`
optional. -/
structure FileManagerArgs where
  command : FileManagerCommand
  path : String
  new_path : Option String

/-! ### Chat UI layer

Translated from `src/components/chat/formatToolMessage.ts` and the
`ToolInvocationBadge` component. At runtime `args` is an arbitrary record
(`ToolArgs` includes `Record<string, unknown>` and `formatToolMessage` casts
unchecked), so the runtime argument object is modelled with every field
optional. -/

/-- The runtime shape of a tool invocation's `args` object: any field may be
absent. -/
structure RawArgs where
  command : Option String
  path : Option String
  file_text : Option String
  insert_line : Option Int
  new_str : Option String
  old_str : Option String
  view_range : Option (Int × Int)
  new_path : Option String

/-- The `state` union of `ToolInvocation`
(`"partial-call" | "call" | "result"`). -/
inductive InvState where
  | preCall
  | call
  | result
deriving Repr, DecidableEq

/-- `ToolInvocation` from `tool-invocation-types.ts`; `result: unknown` is
modelled as an optional value, `none` standing for `undefined`. -/
structure ToolInvocation where
  toolName : String
  state : InvState
  args : Option RawArgs
  result : Option String

/-- `word.charAt(0).toUpperCase() + word.slice(1)`. -/
def capFirst (w : String) : String :=
  match w.data with
  | [] => ""
  | c :: rest => ⟨c.toUpper :: rest⟩

/-- `toolName.split("_")` on the character level: split a character list at
every occurrence of `sep`, keeping empty pieces. -/
def splitChar (sep : Char) : List Char → List (List Char)
  | [] => [[]]
  | c :: rest =>
    if c = sep then [] :: splitChar sep rest
    else
      match splitChar sep rest with
      | [] => [[c]]
      | w :: ws => (c :: w) :: ws

/-- `formatFallbackMessage`: snake_case tool name to Title Case. -/
def formatFallbackMessage (toolName : String) : String :=
  String.intercalate " " ((splitChar '_' toolName.data).map (fun w => capFirst ⟨w⟩))

/-- `path || "file"`: the empty string and an absent field both fall back. -/
def pathOrFile (path : Option String) : String :=
  match path with
  | some p => if p = "" then "file" else p
  | none => "file"

/-- `formatStrReplaceMessage`: switch over `args.command`; any unrecognized
or absent command takes the default branch. -/
def formatStrReplaceMessage (args : RawArgs) : String :=
  let filePath := pathOrFile args.path
  match args.command with
  | some "create" => "Creating " ++ filePath
  | some "str_replace" => "Editing " ++ filePath
  | some "insert" => "Editing " ++ filePath
  | some "view" => "Reading " ++ filePath
  | some "undo_edit" => "Undoing changes to " ++ filePath
  | _ => "Editing " ++ filePath

/-- `formatFileManagerMessage`: `rename` mentions `new_path` only when it is
present and truthy. -/
def formatFileManagerMessage (args : RawArgs) : String :=
  let filePath := pathOrFile args.path
  match args.command with
  | some "rename" =>
    match args.new_path with
    | some np =>
      if np = "" then "Renaming " ++ filePath
      else "Renaming " ++ filePath ++ " to " ++ np
    | none => "Renaming " ++ filePath
  | some "delete" => "Deleting " ++ filePath
  | _ => "Managing " ++ filePath

/-- `formatToolMessage`: fallback without args, then dispatch on the tool
name. -/
def formatToolMessage (i : ToolInvocation) : String :=
  match i.args with
  | none => formatFallbackMessage i.toolName
  | some args =>
    if i.toolName = "str_replace_editor" then formatStrReplaceMessage args
    else if i.toolName = "file_manager" then formatFileManagerMessage args
    else formatFallbackMessage i.toolName

/-- The observable pieces of a rendered `ToolInvocationBadge`. -/
structure BadgeView where
  complete : Bool
  spinner : Bool
  ariaLabel : String
  message : String

/-- `ToolInvocationBadge`: complete exactly when
`state === "result" && result !== undefined`; otherwise the spinner variant
with the `In progress:` label. -/
def renderBadge (i : ToolInvocation) : BadgeView :=
  let message := formatToolMessage i
  let isComplete :=
    (match i.state with
     | InvState.result => true
     | _ => false)
    && (match i.result with
        | some _ => true
        | none => false)
  { complete := isComplete
    spinner := !isComplete
    ariaLabel :=
      (if isComplete then "Completed: " else "In progress: ") ++ message
    message := message }

/-! ### Lemmas about directory entry lists and path resolution -/

theorem findChild_setChild_self (ch : List (String × Node)) (n : String) (x : Node) :
    findChild (setChild ch n x) n = some x := by
  induction ch with
  | nil => simp [setChild, findChild]
  | cons e rest ih =>
    obtain ⟨m, c⟩ := e
    by_cases h : m = n
    · simp [setChild, h, findChild]
    · simp [setChild, h, findChild, ih]

theorem findChild_append_self (ch : List (String × Node)) (n : String) (x : Node)
    (h : findChild ch n = none) : findChild (ch ++ [(n, x)]) n = some x := by
  induction ch with
  | nil => simp [findChild]
  | cons e rest ih =>
    obtain ⟨m, c⟩ := e
    by_cases hm : m = n
    · simp [findChild, hm] at h
    · simp only [List.cons_append, findChild, if_neg hm] at h ⊢
      exact ih h

theorem canPut_empty_dir (rest : List String) (h : rest ≠ []) :
    canPut (Node.dir []) rest = true := by
  cases rest with
  | nil => exact absurd rfl h
  | cons n rs => cases rs <;> simp [canPut, findChild]

theorem putNode_single (ch : List (String × Node)) (n : String) (x : Node) :
    putNode (Node.dir ch) [n] x = .ok (Node.dir (setChild ch n x)) := rfl

theorem putNode_cons_cons (ch : List (String × Node)) (n r : String)
    (rs : List String) (x : Node) :
    putNode (Node.dir ch) (n :: r :: rs) x =
      match findChild ch n with
      | some c =>
        match putNode c (r :: rs) x with
        | .ok c2 => .ok (Node.dir (setChild ch n c2))
        | .error e => .error e
      | none =>
        match putNode (Node.dir []) (r :: rs) x with
        | .ok c2 => .ok (Node.dir (ch ++ [(n, c2)]))
        | .error e => .error e := rfl

theorem canPut_cons_cons (ch : List (String × Node)) (n r : String)
    (rs : List String) :
    canPut (Node.dir ch) (n :: r :: rs) =
      match findChild ch n with
      | some c => canPut c (r :: rs)
      | none => true := rfl

theorem lookup_dir_cons (ch : List (String × Node)) (n : String)
    (rest : List String) :
    lookup (Node.dir ch) (n :: rest) =
      match findChild ch n with
      | some c => lookup c rest
      | none => none := rfl

theorem putNode_ok_of_canPut (p : List String) (t x : Node)
    (h : canPut t p = true) : ∃ t2, putNode t p x = .ok t2 := by
  induction p generalizing t with
  | nil => simp [canPut] at h
  | cons n rest ih =>
    cases t with
    | file c => simp [canPut] at h
    | dir ch =>
      cases rest with
      | nil => exact ⟨Node.dir (setChild ch n x), rfl⟩
      | cons r rs =>
        cases hf : findChild ch n with
        | some c =>
          have hc : canPut c (r :: rs) = true := by
            simpa only [canPut_cons_cons, hf] using h
          obtain ⟨c2, hc2⟩ := ih c hc
          exact ⟨Node.dir (setChild ch n c2), by
            simp only [putNode_cons_cons, hf, hc2]⟩
        | none =>
          obtain ⟨c2, hc2⟩ := ih (Node.dir []) (canPut_empty_dir _ (by simp))
          exact ⟨Node.dir (ch ++ [(n, c2)]), by
            simp only [putNode_cons_cons, hf, hc2]⟩

theorem lookup_putNode_self (p : List String) (t x t2 : Node)
    (h : putNode t p x = .ok t2) : lookup t2 p = some x := by
  induction p generalizing t t2 with
  | nil => simp [putNode] at h
  | cons n rest ih =>
    cases t with
    | file c => simp [putNode] at h
    | dir ch =>
      cases rest with
      | nil =>
        rw [putNode_single] at h
        cases h
        simp [lookup, findChild_setChild_self]
      | cons r rs =>
        rw [putNode_cons_cons] at h
        split at h
        next c heqf =>
          split at h
          next c2 heqp =>
            cases h
            simp only [lookup_dir_cons, findChild_setChild_self]
            exact ih _ _ heqp
          next e heqp => cases h
        next heqf =>
          split at h
          next c2 heqp =>
            cases h
            simp only [lookup_dir_cons, findChild_append_self ch n c2 heqf]
            exact ih _ _ heqp
          next e heqp => cases h

theorem canPut_of_lookup_some (p : List String) (t v : Node)
    (hne : p ≠ []) (h : lookup t p = some v) : canPut t p = true := by
  induction p generalizing t with
  | nil => exact absurd rfl hne
  | cons n rest ih =>
    cases t with
    | file c => simp [lookup] at h
    | dir ch =>
      cases rest with
      | nil => simp [canPut]
      | cons r rs =>
        rw [lookup_dir_cons] at h
        split at h
        next c heqf =>
          simp only [canPut_cons_cons, heqf]
          exact ih c (by simp) h
        next heqf => cases h

theorem lookup_putNode_prefix (p : List String) (t x t2 : Node)
    (h : putNode t p x = .ok t2) (q : List String) (hq : q <+: p) (hne : q ≠ p) :
    ∃ ch, lookup t2 q = some (Node.dir ch) := by
  induction p generalizing t t2 q with
  | nil => simp [putNode] at h
  | cons n rest ih =>
    cases t with
    | file c => simp [putNode] at h
    | dir ch =>
      cases q with
      | nil =>
        cases rest with
        | nil =>
          rw [putNode_single] at h
          cases h
          exact ⟨_, rfl⟩
        | cons r rs =>
          rw [putNode_cons_cons] at h
          split at h
          next c heqf =>
            split at h
            next c2 heqp => cases h; exact ⟨_, rfl⟩
            next e heqp => cases h
          next heqf =>
            split at h
            next c2 heqp => cases h; exact ⟨_, rfl⟩
            next e heqp => cases h
      | cons b q2 =>
        obtain ⟨hb, hq2⟩ := List.cons_prefix_cons.mp hq
        subst hb
        have hne2 : q2 ≠ rest := fun hEq => hne (by rw [hEq])
        cases rest with
        | nil =>
          have : q2 = [] := List.prefix_nil.mp hq2
          exact absurd this hne2
        | cons r rs =>
          rw [putNode_cons_cons] at h
          split at h
          next c heqf =>
            split at h
            next c2 heqp =>
              cases h
              obtain ⟨ch2, hch2⟩ := ih _ _ heqp q2 hq2 hne2
              refine ⟨ch2, ?_⟩
              simp only [lookup_dir_cons, findChild_setChild_self]
              exact hch2
            next e heqp => cases h
          next heqf =>
            split at h
            next c2 heqp =>
              cases h
              obtain ⟨ch2, hch2⟩ := ih _ _ heqp q2 hq2 hne2
              refine ⟨ch2, ?_⟩
              simp only [lookup_dir_cons, findChild_append_self ch b c2 heqf]
              exact hch2
            next e heqp => cases h





/-! ### Path validity and well-formedness lemmas -/

theorem validPathB_ne_nil (p : List String) (h : validPathB p = true) :
    p ≠ [] := by
  cases p with
  | nil => simp [validPathB] at h
  | cons a l => simp

theorem validSeg_no_sep (s : String) (h : validSeg s = true) :
    s.data.contains '/' = false := by
  simp only [validSeg, Bool.and_eq_true, Bool.not_eq_true', bne_iff_ne] at h
  exact h.1.1.2

theorem validPathB_segs (p : List String) (h : validPathB p = true) :
    ∀ s ∈ p, s.data.contains '/' = false := by
  intro s hs
  simp only [validPathB, Bool.and_eq_true, List.all_eq_true] at h
  exact validSeg_no_sep s (h.2 s hs)

theorem wfNode_dir (ch : List (String × Node)) :
    wfNode (Node.dir ch) = wfEntries ch := by
  simp [wfNode]

theorem wfNode_file (c : String) : wfNode (Node.file c) = true := by
  simp [wfNode]

theorem wfEntries_nil : wfEntries [] = true := by
  simp [wfEntries]

theorem wfEntries_cons (n : String) (t : Node) (rest : List (String × Node)) :
    wfEntries ((n, t) :: rest) =
      (!(n.data.contains '/') && wfNode t && wfEntries rest) := by
  simp [wfEntries]

theorem findChild_name_ok (ch : List (String × Node)) (n : String) (c : Node)
    (hwf : wfEntries ch = true) (h : findChild ch n = some c) :
    n.data.contains '/' = false ∧ wfNode c = true := by
  induction ch with
  | nil => simp [findChild] at h
  | cons e rest ih =>
    obtain ⟨m, t⟩ := e
    rw [wfEntries_cons] at hwf
    simp only [Bool.and_eq_true, Bool.not_eq_true'] at hwf
    obtain ⟨⟨h1, h2⟩, h3⟩ := hwf
    simp only [findChild] at h
    by_cases hm : m = n
    · rw [if_pos hm] at h
      cases h
      exact ⟨hm ▸ h1, h2⟩
    · rw [if_neg hm] at h
      exact ih h3 h

theorem wfEntries_setChild (ch : List (String × Node)) (n : String) (x : Node)
    (hwf : wfEntries ch = true) (hn : n.data.contains '/' = false)
    (hx : wfNode x = true) : wfEntries (setChild ch n x) = true := by
  have hn2 : '/' ∉ n.data := by simpa using hn
  induction ch with
  | nil =>
    simp [setChild, wfEntries_cons, wfEntries_nil, hn2, hx]
  | cons e rest ih =>
    obtain ⟨m, c⟩ := e
    rw [wfEntries_cons] at hwf
    simp only [Bool.and_eq_true, Bool.not_eq_true'] at hwf
    obtain ⟨⟨h1, h2⟩, h3⟩ := hwf
    by_cases hm : m = n
    · simp [setChild, hm, wfEntries_cons, hn2, hx, h3]
    · simp only [setChild, if_neg hm, wfEntries_cons, Bool.and_eq_true,
        Bool.not_eq_true']
      exact ⟨⟨h1, h2⟩, by simpa [Bool.and_eq_true] using ih h3⟩

theorem wfEntries_append_one (ch : List (String × Node)) (n : String) (x : Node)
    (hwf : wfEntries ch = true) (hn : n.data.contains '/' = false)
    (hx : wfNode x = true) : wfEntries (ch ++ [(n, x)]) = true := by
  have hn2 : '/' ∉ n.data := by simpa using hn
  induction ch with
  | nil => simp [wfEntries_cons, wfEntries_nil, hn2, hx]
  | cons e rest ih =>
    obtain ⟨m, c⟩ := e
    rw [wfEntries_cons] at hwf
    simp only [Bool.and_eq_true, Bool.not_eq_true'] at hwf
    obtain ⟨⟨h1, h2⟩, h3⟩ := hwf
    simp only [List.cons_append, wfEntries_cons, Bool.and_eq_true,
      Bool.not_eq_true']
    exact ⟨⟨h1, h2⟩, by simpa [Bool.and_eq_true] using ih h3⟩

theorem wfEntries_removeChild (ch : List (String × Node)) (n : String)
    (hwf : wfEntries ch = true) : wfEntries (removeChild ch n) = true := by
  induction ch with
  | nil => simp [removeChild, wfEntries_nil]
  | cons e rest ih =>
    obtain ⟨m, c⟩ := e
    rw [wfEntries_cons] at hwf
    simp only [Bool.and_eq_true, Bool.not_eq_true'] at hwf
    obtain ⟨⟨h1, h2⟩, h3⟩ := hwf
    by_cases hm : m = n
    · simpa [removeChild, List.filter_cons, hm] using ih h3
    · have hstep : removeChild ((m, c) :: rest) n = (m, c) :: removeChild rest n := by
        simp [removeChild, List.filter_cons, hm]
      rw [hstep, wfEntries_cons]
      simp only [Bool.and_eq_true, Bool.not_eq_true']
      exact ⟨⟨h1, h2⟩, ih h3⟩

theorem removeNode_single (ch : List (String × Node)) (n : String) :
    removeNode (Node.dir ch) [n] =
      match findChild ch n with
      | some _ => some (Node.dir (removeChild ch n))
      | none => none := rfl

theorem removeNode_cons_cons (ch : List (String × Node)) (n r : String)
    (rs : List String) :
    removeNode (Node.dir ch) (n :: r :: rs) =
      match findChild ch n with
      | some c =>
        (removeNode c (r :: rs)).map (fun c2 => Node.dir (setChild ch n c2))
      | none => none := rfl

theorem wf_putNode (p : List String) (t x t2 : Node)
    (hwf : wfNode t = true) (hx : wfNode x = true)
    (hp : ∀ s ∈ p, s.data.contains '/' = false)
    (h : putNode t p x = .ok t2) : wfNode t2 = true := by
  induction p generalizing t t2 with
  | nil => simp [putNode] at h
  | cons n rest ih =>
    cases t with
    | file c => simp [putNode] at h
    | dir ch =>
      rw [wfNode_dir] at hwf
      cases rest with
      | nil =>
        rw [putNode_single] at h
        cases h
        rw [wfNode_dir]
        exact wfEntries_setChild ch n x hwf (hp n (by simp)) hx
      | cons r rs =>
        rw [putNode_cons_cons] at h
        split at h
        next c heqf =>
          split at h
          next c2 heqp =>
            cases h
            have hcwf := (findChild_name_ok ch n c hwf heqf).2
            have hc2 := ih c c2 hcwf
              (fun s hs => hp s (List.mem_cons_of_mem _ hs)) heqp
            rw [wfNode_dir]
            exact wfEntries_setChild ch n c2 hwf (hp n (by simp)) hc2
          next e heqp => cases h
        next heqf =>
          split at h
          next c2 heqp =>
            cases h
            have hc2 := ih (Node.dir []) c2 (by rw [wfNode_dir]; exact wfEntries_nil)
              (fun s hs => hp s (List.mem_cons_of_mem _ hs)) heqp
            rw [wfNode_dir]
            exact wfEntries_append_one ch n c2 hwf (hp n (by simp)) hc2
          next e heqp => cases h

theorem wf_removeNode (p : List String) (t t2 : Node)
    (hwf : wfNode t = true) (h : removeNode t p = some t2) :
    wfNode t2 = true := by
  induction p generalizing t t2 with
  | nil => simp [removeNode] at h
  | cons n rest ih =>
    cases t with
    | file c => simp [removeNode] at h
    | dir ch =>
      rw [wfNode_dir] at hwf
      cases rest with
      | nil =>
        rw [removeNode_single] at h
        split at h
        next c heqf =>
          cases h
          rw [wfNode_dir]
          exact wfEntries_removeChild ch n hwf
        next heqf => cases h
      | cons r rs =>
        rw [removeNode_cons_cons] at h
        split at h
        next c heqf =>
          rw [Option.map_eq_some'] at h
          obtain ⟨c2, hc2, ht2⟩ := h
          subst ht2
          obtain ⟨hname, hcwf⟩ := findChild_name_ok ch n c hwf heqf
          have := ih c c2 hcwf hc2
          rw [wfNode_dir]
          exact wfEntries_setChild ch n c2 hwf hname this
        next heqf => cases h

theorem wf_lookup (p : List String) (t v : Node)
    (hwf : wfNode t = true) (h : lookup t p = some v) : wfNode v = true := by
  induction p generalizing t with
  | nil =>
    simp only [lookup] at h
    cases h
    exact hwf
  | cons n rest ih =>
    cases t with
    | file c => simp [lookup] at h
    | dir ch =>
      rw [wfNode_dir] at hwf
      rw [lookup_dir_cons] at h
      split at h
      next c heqf =>
        exact ih c (findChild_name_ok ch n c hwf heqf).2 h
      next heqf => cases h

theorem lookup_segs_ok (p : List String) (t v : Node)
    (hwf : wfNode t = true) (h : lookup t p = some v) :
    ∀ s ∈ p, s.data.contains '/' = false := by
  induction p generalizing t with
  | nil => intro s hs; simp at hs
  | cons n rest ih =>
    cases t with
    | file c => simp [lookup] at h
    | dir ch =>
      rw [wfNode_dir] at hwf
      rw [lookup_dir_cons] at h
      split at h
      next c heqf =>
        intro s hs
        rcases List.mem_cons.mp hs with hs | hs
        · exact hs ▸ (findChild_name_ok ch n c hwf heqf).1
        · exact ih c (findChild_name_ok ch n c hwf heqf).2 h s hs
      next heqf => cases h

/-! ### Undo History lemmas -/

theorem histFind_record_self (h : History) (p : List String) (c : String) :
    histFind (histRecord h p c) p = some c := by
  simp [histRecord, histFind]

theorem histFind_invalidate_self (h : History) (p : List String) :
    histFind (histInvalidate h p) p = none := by
  induction h with
  | nil => simp [histInvalidate, histFind]
  | cons e rest ih =>
    obtain ⟨q, c⟩ := e
    by_cases hq : q = p
    · simpa [histInvalidate, List.filter_cons, hq] using ih
    · have hstep : histInvalidate ((q, c) :: rest) p = (q, c) :: histInvalidate rest p := by
        simp [histInvalidate, List.filter_cons, hq]
      rw [hstep, histFind, if_neg hq]
      exact ih

/-! ### Occurrence counting and single replacement -/

theorem replaceFirst_of_countOne (pat repl : List Char) (s : List Char)
    (h : countOccAux pat s = 1) :
    ∃ pre suf, s = pre ++ pat ++ suf ∧
      replaceFirstAux pat repl s = pre ++ repl ++ suf := by
  induction s with
  | nil =>
    by_cases hpat : pat = []
    · subst hpat
      exact ⟨[], [], rfl, by simp [replaceFirstAux]⟩
    · simp [countOccAux, hpat] at h
  | cons c rest ih =>
    by_cases hp : pat.isPrefixOf (c :: rest)
    · obtain ⟨u, hu⟩ := List.isPrefixOf_iff_prefix.mp hp
      refine ⟨[], u, by simp [hu.symm], ?_⟩
      have hdrop : (c :: rest).drop pat.length = u := by
        rw [← hu, List.drop_left]
      simp [replaceFirstAux, hp, hdrop]
    · have hrest : countOccAux pat rest = 1 := by
        simpa [countOccAux, hp] using h
      obtain ⟨pre, suf, h1, h2⟩ := ih hrest
      exact ⟨c :: pre, suf, by simp [h1], by simp [replaceFirstAux, hp, h2]⟩

/-! ### Serialization round-trip -/

mutual

theorem roundtrip_node (t : Node) (h : wfNode t = true) :
    deserialize (serialize t) = .ok t := by
  cases t with
  | file c => simp [serialize, deserialize]
  | dir ch =>
    rw [wfNode_dir] at h
    have := roundtrip_entries ch h
    simp [serialize, deserialize, this]

theorem roundtrip_entries (ch : List (String × Node)) (h : wfEntries ch = true) :
    deserializeEntries (serializeEntries ch) = .ok ch := by
  cases ch with
  | nil => simp [serializeEntries, deserializeEntries]
  | cons e rest =>
    obtain ⟨n, t⟩ := e
    rw [wfEntries_cons] at h
    simp only [Bool.and_eq_true, Bool.not_eq_true'] at h
    obtain ⟨⟨h1, h2⟩, h3⟩ := h
    have ht := roundtrip_node t h2
    have hrest := roundtrip_entries rest h3
    have h1b : '/' ∉ n.data := by simpa using h1
    simp [serializeEntries, deserializeEntries, h1b, ht, hrest]

end

/-! ### Success inversions for the mutating operations -/

theorem except_map_ok {α β γ : Type} (f : α → β) (x : Except γ α) (b : β)
    (h : x.map f = .ok b) : ∃ a, x = .ok a ∧ f a = b := by
  cases x with
  | ok a => exact ⟨a, rfl, by simpa [Except.map] using h⟩
  | error e => simp [Except.map] at h

theorem createFile_ok (t : Node) (p : List String) (c : String) (t2 : Node)
    (h : createFile t p c = .ok t2) :
    validPathB p = true ∧ lookup t p = none ∧
      putNode t p (Node.file c) = .ok t2 := by
  unfold createFile at h
  split at h
  next hv =>
    split at h
    next v heq => cases h
    next heq => exact ⟨by simpa using hv, heq, h⟩
  next hv => cases h

theorem createDirectory_ok (t : Node) (p : List String) (t2 : Node)
    (h : createDirectory t p = .ok t2) :
    validPathB p = true ∧
      (t2 = t ∨ (lookup t p = none ∧ putNode t p (Node.dir []) = .ok t2)) := by
  unfold createDirectory at h
  split at h
  next hv =>
    split at h
    next c heq => cases h
    next ch heq => cases h; exact ⟨by simpa using hv, Or.inl rfl⟩
    next heq => exact ⟨by simpa using hv, Or.inr ⟨heq, h⟩⟩
  next hv => cases h

theorem writeFile_ok (t : Node) (p : List String) (c : String) (t2 : Node)
    (h : writeFile t p c = .ok t2) :
    ∃ c0, lookup t p = some (Node.file c0) ∧
      putNode t p (Node.file c) = .ok t2 := by
  unfold writeFile at h
  split at h
  next c0 heq => exact ⟨c0, heq, h⟩
  next heq => cases h

theorem deleteNode_ok (t : Node) (p : List String) (t2 : Node)
    (h : deleteNode t p = .ok t2) : removeNode t p = some t2 := by
  unfold deleteNode at h
  split at h
  next => cases h
  next =>
    split at h
    next t3 heq => cases h; exact heq
    next heq => cases h

theorem rename_ok (t : Node) (pOld pNew : List String) (t2 : Node)
    (h : rename t pOld pNew = .ok t2) :
    validPathB pOld = true ∧ validPathB pNew = true ∧
      ∃ node t1, lookup t pOld = some node ∧ removeNode t pOld = some t1 ∧
        putNode t1 pNew node = .ok t2 := by
  unfold rename at h
  split at h
  next hv =>
    simp only [Bool.and_eq_true] at hv
    split at h
    next heq => cases h
    next node heq =>
      split at h
      next v2 heq2 => cases h
      next heq2 =>
        split at h
        next heq3 => cases h
        next t1 heq3 => exact ⟨hv.1, hv.2, node, t1, heq, heq3, h⟩
  next hv => cases h

theorem teCreate_ok (s : EState) (p : List String) (c : String) (s2 : EState)
    (h : teCreate s p c = .ok s2) :
    validPathB p = true ∧ putNode s.tree p (Node.file c) = .ok s2.tree := by
  unfold teCreate at h
  split at h
  next hv =>
    split at h
    next c0 heq =>
      split at h
      next t2 heqp => cases h; exact ⟨by simpa using hv, heqp⟩
      next e heqp => cases h
    next ch heq => cases h
    next heq =>
      split at h
      next t2 heqp => cases h; exact ⟨by simpa using hv, heqp⟩
      next e heqp => cases h
  next hv => cases h

theorem teStrReplace_ok (s : EState) (p : List String) (o n : String)
    (s2 : EState) (h : teStrReplace s p o n = .ok s2) :
    ∃ c, lookup s.tree p = some (Node.file c) ∧
      putNode s.tree p (Node.file (replaceFirst c o n)) = .ok s2.tree := by
  unfold teStrReplace at h
  split at h
  next c heq =>
    split at h
    next hc => cases h
    next hc =>
      split at h
      next t2 heqp => cases h; exact ⟨c, heq, heqp⟩
      next e heqp => cases h
    next k hc => cases h
  next heq => cases h

theorem teInsert_ok (s : EState) (p : List String) (line : Nat) (text : String)
    (s2 : EState) (h : teInsert s p line text = .ok s2) :
    ∃ c c2, lookup s.tree p = some (Node.file c) ∧
      putNode s.tree p (Node.file c2) = .ok s2.tree := by
  unfold teInsert at h
  split at h
  next c heq =>
    split at h
    next hr => cases h
    next hr =>
      split at h
      next t2 heqp => cases h; exact ⟨c, _, heq, heqp⟩
      next e heqp => cases h
  next heq => cases h

theorem teUndo_ok (s : EState) (p : List String) (s2 : EState)
    (h : teUndo s p = .ok s2) :
    ∃ c0, histFind s.history p = some c0 ∧ writeFile s.tree p c0 = .ok s2.tree ∧
      s2.history = histInvalidate s.history p := by
  unfold teUndo at h
  split at h
  next heq => cases h
  next c0 heq =>
    split at h
    next t2 heqp => cases h; exact ⟨c0, heq, heqp, rfl⟩
    next e heqp => cases h

/-! ### Reachable states are well-formed -/

theorem reach_wf (s : EState) (h : ReachableE s) : wfNode s.tree = true := by
  induction h with
  | init => rw [wfNode_dir]; exact wfEntries_nil
  | step op s s2 hr hok ih =>
    cases op with
    | createFile p c =>
      simp only [runMut] at hok
      obtain ⟨t2, hx, hmk⟩ := except_map_ok _ _ _ hok
      obtain ⟨hv, _, hput⟩ := createFile_ok _ _ _ _ hx
      have := wf_putNode p s.tree _ t2 ih (wfNode_file c) (validPathB_segs p hv) hput
      rw [← hmk]
      exact this
    | createDirectory p =>
      simp only [runMut] at hok
      obtain ⟨t2, hx, hmk⟩ := except_map_ok _ _ _ hok
      obtain ⟨hv, hcase⟩ := createDirectory_ok _ _ _ hx
      rw [← hmk]
      rcases hcase with hsame | ⟨_, hput⟩
      · rw [hsame]; exact ih
      · exact wf_putNode p s.tree _ t2 ih (by rw [wfNode_dir]; exact wfEntries_nil)
          (validPathB_segs p hv) hput
    | writeFile p c =>
      simp only [runMut] at hok
      obtain ⟨t2, hx, hmk⟩ := except_map_ok _ _ _ hok
      obtain ⟨c0, hl, hput⟩ := writeFile_ok _ _ _ _ hx
      rw [← hmk]
      exact wf_putNode p s.tree _ t2 ih (wfNode_file c)
        (lookup_segs_ok p s.tree _ ih hl) hput
    | deleteNode p =>
      simp only [runMut] at hok
      obtain ⟨t2, hx, hmk⟩ := except_map_ok _ _ _ hok
      have hrm := deleteNode_ok _ _ _ hx
      rw [← hmk]
      exact wf_removeNode p s.tree t2 ih hrm
    | rename pOld pNew =>
      simp only [runMut] at hok
      obtain ⟨t2, hx, hmk⟩ := except_map_ok _ _ _ hok
      obtain ⟨hv1, hv2, node, t1, hl, hrm, hput⟩ := rename_ok _ _ _ _ hx
      rw [← hmk]
      exact wf_putNode pNew t1 node t2 (wf_removeNode pOld s.tree t1 ih hrm)
        (wf_lookup pOld s.tree node ih hl) (validPathB_segs pNew hv2) hput
    | teCreate p c =>
      obtain ⟨hv, hput⟩ := teCreate_ok s p c s2 hok
      exact wf_putNode p s.tree _ s2.tree ih (wfNode_file c)
        (validPathB_segs p hv) hput
    | strReplace p o n =>
      obtain ⟨c, hl, hput⟩ := teStrReplace_ok s p o n s2 hok
      exact wf_putNode p s.tree _ s2.tree ih (wfNode_file _)
        (lookup_segs_ok p s.tree _ ih hl) hput
    | insert p line text =>
      obtain ⟨c, c2, hl, hput⟩ := teInsert_ok s p line text s2 hok
      exact wf_putNode p s.tree _ s2.tree ih (wfNode_file _)
        (lookup_segs_ok p s.tree _ ih hl) hput
    | undo p =>
      obtain ⟨c0, hfind, hw, hh⟩ := teUndo_ok s p s2 hok
      obtain ⟨c1, hl, hput⟩ := writeFile_ok _ _ _ _ hw
      exact wf_putNode p s.tree _ s2.tree ih (wfNode_file _)
        (lookup_segs_ok p s.tree _ ih hl) hput

/-! ### Claim theorems -/

/-- C1 counterexample: the claim as stated requires `new_path` for `rename`,
but the source argument type declares `new_path` optional: a `rename` value
with no `new_path` inhabits `FileManagerArgs` (the repository's own tests
format exactly such a value). -/
theorem claim_c1_counterexample :
    ∃ a : FileManagerArgs,
      a.command = FileManagerCommand.rename ∧ a.new_path = none :=
  ⟨⟨FileManagerCommand.rename, "old-name.js", none⟩, rfl, rfl⟩

/-- C1 (amended): the Tool Adapter Layer exposes exactly two operation
families with closed command vocabularies: the text-editor family's commands
are exactly `view`, `create`, `str_replace`, `insert`, `undo_edit` and the
file-manager family's are exactly `rename`, `delete`; both argument types
always carry a `path`, and `FileManagerArgs` carries `new_path` as an
optional field; no other command inhabits either command type. -/
theorem claim_c1_tool_vocabularies_closed :
    (∀ c : StrReplaceCommand,
        c = StrReplaceCommand.view ∨ c = StrReplaceCommand.create ∨
        c = StrReplaceCommand.str_replace ∨ c = StrReplaceCommand.insert ∨
        c = StrReplaceCommand.undo_edit) ∧
    (∀ c : FileManagerCommand,
        c = FileManagerCommand.rename ∨ c = FileManagerCommand.delete) ∧
    (∀ a : StrReplaceEditorArgs, ∃ p : String, a.path = p) ∧
    (∀ a : FileManagerArgs, ∃ p : String, a.path = p) ∧
    (∀ a : FileManagerArgs, a.new_path = none ∨ ∃ np, a.new_path = some np) := by
  refine ⟨?_, ?_, ?_, ?_, ?_⟩
  · intro c; cases c <;> simp
  · intro c; cases c <;> simp
  · intro a; exact ⟨a.path, rfl⟩
  · intro a; exact ⟨a.path, rfl⟩
  · intro a
    cases h : a.new_path with
    | none => exact Or.inl rfl
    | some np => exact Or.inr ⟨np, rfl⟩

/-- C4: every mutating operation is whole-operation atomic: on an error the
post-call state equals the pre-call state (tree and history untouched), and
on success the post-call state is exactly the fully applied new state. -/
theorem claim_c4_mutations_atomic (op : MutOp) (s : EState) :
    (∀ e, runMut op s = .error e → applyMut op s = s) ∧
    (∀ s2, runMut op s = .ok s2 → applyMut op s = s2) := by
  constructor
  · intro e he
    simp [applyMut, he]
  · intro s2 hs
    simp [applyMut, hs]

theorem claim_c4_witness :
    applyMut (MutOp.undo ["a"]) ⟨Node.dir [], []⟩ = ⟨Node.dir [], []⟩ :=
  (claim_c4_mutations_atomic (MutOp.undo ["a"]) ⟨Node.dir [], []⟩).1
    FsError.NoHistory rfl

/-- C5: for every state reachable through the §4.2–4.3 operations,
`deserialize (serialize tree)` succeeds with a tree equal to the original, in
particular indistinguishable from it under `readFile` and `list` on every
path. -/
theorem claim_c5_serialize_roundtrip (s : EState) (h : ReachableE s) :
    deserialize (serialize s.tree) = .ok s.tree ∧
    ∀ t2, deserialize (serialize s.tree) = .ok t2 →
      ∀ q, readFile t2 q = readFile s.tree q ∧ list t2 q = list s.tree q := by
  have hwf := reach_wf s h
  have hrt := roundtrip_node s.tree hwf
  refine ⟨hrt, ?_⟩
  intro t2 h2
  rw [hrt] at h2
  cases h2
  intro q
  exact ⟨rfl, rfl⟩

theorem claim_c5_witness :
    deserialize (serialize (Node.dir [("App.jsx", Node.file "x")])) =
      .ok (Node.dir [("App.jsx", Node.file "x")]) :=
  (claim_c5_serialize_roundtrip ⟨Node.dir [("App.jsx", Node.file "x")], []⟩
    (ReachableE.step (MutOp.createFile ["App.jsx"] "x") ⟨Node.dir [], []⟩
      ⟨Node.dir [("App.jsx", Node.file "x")], []⟩ ReachableE.init rfl)).1

/-- C6: for a valid path whose existing proper ancestors are directories and
whose target is absent (in particular whenever some ancestor directory is
missing), `createFile` and `createDirectory` both succeed — never failing for
a missing parent — creating all missing ancestor directories, so that
afterwards every proper ancestor of the path denotes a Directory. -/
theorem claim_c6_implicit_ancestor_creation (t : Node) (p : List String)
    (c : String) (hv : validPathB p = true) (hcan : canPut t p = true)
    (habs : lookup t p = none) :
    (∃ t2, createFile t p c = .ok t2 ∧ readFile t2 p = .ok c ∧
      ∀ q, q <+: p → q ≠ p → ∃ ch, lookup t2 q = some (Node.dir ch)) ∧
    (∃ t2, createDirectory t p = .ok t2 ∧
      ∀ q, q <+: p → q ≠ p → ∃ ch, lookup t2 q = some (Node.dir ch)) := by
  constructor
  · obtain ⟨t2, hput⟩ := putNode_ok_of_canPut p t (Node.file c) hcan
    refine ⟨t2, ?_, ?_, ?_⟩
    · simp [createFile, hv, habs, hput]
    · simp [readFile, lookup_putNode_self p t _ t2 hput]
    · exact lookup_putNode_prefix p t _ t2 hput
  · obtain ⟨t2, hput⟩ := putNode_ok_of_canPut p t (Node.dir []) hcan
    refine ⟨t2, ?_, ?_⟩
    · simp [createDirectory, hv, habs, hput]
    · exact lookup_putNode_prefix p t _ t2 hput

theorem claim_c6_witness :
    ∃ t2, createFile (Node.dir []) ["components", "Button.jsx"] "b" = .ok t2 ∧
      readFile t2 ["components", "Button.jsx"] = .ok "b" ∧
      ∀ q, q <+: ["components", "Button.jsx"] →
        q ≠ ["components", "Button.jsx"] →
        ∃ ch, lookup t2 q = some (Node.dir ch) :=
  (claim_c6_implicit_ancestor_creation (Node.dir [])
    ["components", "Button.jsx"] "b" rfl rfl rfl).1

theorem readFile_ok_lookup (t : Node) (p : List String) (c : String)
    (h : readFile t p = .ok c) : lookup t p = some (Node.file c) := by
  unfold readFile at h
  split at h
  next c0 heq => cases h; exact heq
  next heq => cases h

/-- C2: on a file containing `oldStr` more than once, `strReplace` fails with
`AmbiguousMatch` and leaves the state unchanged; on zero occurrences it fails
with `NoMatch` and leaves the state unchanged; on exactly one occurrence it
replaces that single occurrence, preserving all surrounding content
character-for-character. -/
theorem claim_c2_strReplace_match_discipline (s : EState) (p : List String)
    (o n c : String) (hp : p ≠ []) (hc : readFile s.tree p = .ok c) :
    (2 ≤ countOcc c o →
      teStrReplace s p o n = .error .AmbiguousMatch ∧
        applyMut (MutOp.strReplace p o n) s = s) ∧
    (countOcc c o = 0 →
      teStrReplace s p o n = .error .NoMatch ∧
        applyMut (MutOp.strReplace p o n) s = s) ∧
    (countOcc c o = 1 →
      ∃ s2 pre suf, teStrReplace s p o n = .ok s2 ∧
        c.data = pre ++ o.data ++ suf ∧
        readFile s2.tree p = .ok ⟨pre ++ n.data ++ suf⟩) := by
  have hl := readFile_ok_lookup s.tree p c hc
  refine ⟨?_, ?_, ?_⟩
  · intro h2
    obtain ⟨k, hk⟩ : ∃ k, countOcc c o = k + 2 :=
      ⟨countOcc c o - 2, by omega⟩
    have herr : teStrReplace s p o n = .error .AmbiguousMatch := by
      simp [teStrReplace, hl, hk]
    exact ⟨herr, by simp [applyMut, runMut, herr]⟩
  · intro h0
    have herr : teStrReplace s p o n = .error .NoMatch := by
      simp [teStrReplace, hl, h0]
    exact ⟨herr, by simp [applyMut, runMut, herr]⟩
  · intro h1
    have hcan := canPut_of_lookup_some p s.tree _ hp hl
    obtain ⟨t2, hput⟩ :=
      putNode_ok_of_canPut p s.tree (Node.file (replaceFirst c o n)) hcan
    have hrun : teStrReplace s p o n = .ok ⟨t2, histRecord s.history p c⟩ := by
      simp [teStrReplace, hl, h1, hput]
    have h1x : countOccAux o.data c.data = 1 := h1
    obtain ⟨pre, suf, hdec, hrepl⟩ :=
      replaceFirst_of_countOne o.data n.data c.data h1x
    refine ⟨⟨t2, histRecord s.history p c⟩, pre, suf, hrun, hdec, ?_⟩
    have hl2 := lookup_putNode_self p s.tree _ t2 hput
    simp [readFile, hl2, replaceFirst, hrepl]

theorem claim_c2_witness :
    (teStrReplace ⟨Node.dir [("a", Node.file "xyx")], []⟩ ["a"] "x" "z" =
        .error .AmbiguousMatch ∧
      applyMut (MutOp.strReplace ["a"] "x" "z")
          ⟨Node.dir [("a", Node.file "xyx")], []⟩ =
        ⟨Node.dir [("a", Node.file "xyx")], []⟩) :=
  (claim_c2_strReplace_match_discipline ⟨Node.dir [("a", Node.file "xyx")], []⟩
    ["a"] "x" "z" "xyx" (by simp) rfl).1 (by decide)

/-- C7: the Text-Edit Engine's `create` on a path already holding a File with
content `c0` does not fail with `AlreadyExists`: it records `c0` into the
Undo History and overwrites the content wholesale with `c1`, so `readFile`
then returns `c1` and a subsequent `undo` restores `c0`. -/
theorem claim_c7_create_overwrites_and_undoes (s : EState) (p : List String)
    (c0 c1 : String) (hv : validPathB p = true)
    (hc : readFile s.tree p = .ok c0) :
    ∃ s2, teCreate s p c1 = .ok s2 ∧
      s2.history = histRecord s.history p c0 ∧
      readFile s2.tree p = .ok c1 ∧
      ∃ s3, teUndo s2 p = .ok s3 ∧ readFile s3.tree p = .ok c0 := by
  have hl := readFile_ok_lookup s.tree p c0 hc
  have hne := validPathB_ne_nil p hv
  have hcan := canPut_of_lookup_some p s.tree _ hne hl
  obtain ⟨t2, hput⟩ := putNode_ok_of_canPut p s.tree (Node.file c1) hcan
  have hrun : teCreate s p c1 = .ok ⟨t2, histRecord s.history p c0⟩ := by
    simp [teCreate, hv, hl, hput]
  have hl2 := lookup_putNode_self p s.tree _ t2 hput
  obtain ⟨t3, hput3⟩ :=
    putNode_ok_of_canPut p t2 (Node.file c0) (canPut_of_lookup_some p t2 _ hne hl2)
  have hw : writeFile t2 p c0 = .ok t3 := by
    simp [writeFile, hl2, hput3]
  have hundo : teUndo ⟨t2, histRecord s.history p c0⟩ p =
      .ok ⟨t3, histInvalidate (histRecord s.history p c0) p⟩ := by
    simp [teUndo, histFind_record_self, hw]
  refine ⟨⟨t2, histRecord s.history p c0⟩, hrun, rfl, by simp [readFile, hl2],
    ⟨t3, histInvalidate (histRecord s.history p c0) p⟩, hundo, ?_⟩
  simp [readFile, lookup_putNode_self p t2 _ t3 hput3]

theorem claim_c7_witness :
    ∃ s2, teCreate ⟨Node.dir [("a", Node.file "old")], []⟩ ["a"] "new" = .ok s2 ∧
      s2.history = histRecord [] ["a"] "old" ∧
      readFile s2.tree ["a"] = .ok "new" ∧
      ∃ s3, teUndo s2 ["a"] = .ok s3 ∧ readFile s3.tree ["a"] = .ok "old" :=
  claim_c7_create_overwrites_and_undoes ⟨Node.dir [("a", Node.file "old")], []⟩
    ["a"] "old" "new" rfl rfl

theorem putNode_ok_ne_nil (t : Node) (p : List String) (x t2 : Node)
    (h : putNode t p x = .ok t2) : p ≠ [] := by
  cases p with
  | nil => simp [putNode] at h
  | cons a l => simp

/-- The Text-Edit Engine operations that count as a mutating edit recorded
against path `p` (§4.3). -/
def editsPath : MutOp → List String → Prop
  | MutOp.teCreate q _, p => q = p
  | MutOp.strReplace q _ _, p => q = p
  | MutOp.insert q _ _, p => q = p
  | _, _ => False

theorem undo_after_record (s2 : EState) (p : List String) (hist0 : History)
    (c0 : String) (hne : p ≠ [])
    (hh : s2.history = histRecord hist0 p c0)
    (hl2 : ∃ cN, lookup s2.tree p = some (Node.file cN)) :
    ∃ s3, teUndo s2 p = .ok s3 ∧ readFile s3.tree p = .ok c0 ∧
      teUndo s3 p = .error .NoHistory := by
  obtain ⟨cN, hl2⟩ := hl2
  obtain ⟨t3, hput3⟩ := putNode_ok_of_canPut p s2.tree (Node.file c0)
    (canPut_of_lookup_some p s2.tree _ hne hl2)
  have hw : writeFile s2.tree p c0 = .ok t3 := by
    simp [writeFile, hl2, hput3]
  have hfind : histFind s2.history p = some c0 := by
    rw [hh]; exact histFind_record_self hist0 p c0
  have hundo : teUndo s2 p = .ok ⟨t3, histInvalidate s2.history p⟩ := by
    simp [teUndo, hfind, hw]
  refine ⟨⟨t3, histInvalidate s2.history p⟩, hundo, ?_, ?_⟩
  · simp [readFile, lookup_putNode_self p s2.tree _ t3 hput3]
  · simp [teUndo, histFind_invalidate_self]

/-- C3: after exactly one mutating edit to `p` (an engine `create`,
`strReplace`, or `insert` targeting an existing file with content `c0`),
`undo(p)` restores `c0` and consumes the history entry, so that an
immediately following second `undo(p)` fails with `NoHistory`. -/
theorem claim_c3_undo_single_edit (s : EState) (p : List String) (op : MutOp)
    (c0 : String) (s2 : EState) (hop : editsPath op p)
    (hc : readFile s.tree p = .ok c0) (hrun : runMut op s = .ok s2) :
    ∃ s3, teUndo s2 p = .ok s3 ∧ readFile s3.tree p = .ok c0 ∧
      teUndo s3 p = .error .NoHistory := by
  have hl := readFile_ok_lookup s.tree p c0 hc
  have key : (p ≠ []) ∧ s2.history = histRecord s.history p c0 ∧
      ∃ cN, lookup s2.tree p = some (Node.file cN) := by
    cases op with
    | teCreate q c =>
      have hq : q = p := hop
      subst hq
      simp only [runMut] at hrun
      unfold teCreate at hrun
      split at hrun
      next hv =>
        split at hrun
        next c2 heq =>
          rw [hl] at heq
          cases heq
          split at hrun
          next t2 heqp =>
            cases hrun
            exact ⟨putNode_ok_ne_nil _ _ _ _ heqp, rfl, _,
              lookup_putNode_self _ _ _ _ heqp⟩
          next e heqp => cases hrun
        next ch heq => rw [hl] at heq; cases heq
        next heq => rw [hl] at heq; cases heq
      next hv => cases hrun
    | strReplace q o n2 =>
      have hq : q = p := hop
      subst hq
      simp only [runMut] at hrun
      unfold teStrReplace at hrun
      split at hrun
      next c heq =>
        rw [hl] at heq
        cases heq
        split at hrun
        next h0 => cases hrun
        next h1 =>
          split at hrun
          next t2 heqp =>
            cases hrun
            exact ⟨putNode_ok_ne_nil _ _ _ _ heqp, rfl, _,
              lookup_putNode_self _ _ _ _ heqp⟩
          next e heqp => cases hrun
        next k hk => cases hrun
      next heq => cases hrun
    | insert q line text =>
      have hq : q = p := hop
      subst hq
      simp only [runMut] at hrun
      unfold teInsert at hrun
      split at hrun
      next c heq =>
        rw [hl] at heq
        cases heq
        split at hrun
        next hr => cases hrun
        next hr =>
          split at hrun
          next t2 heqp =>
            cases hrun
            exact ⟨putNode_ok_ne_nil _ _ _ _ heqp, rfl, _,
              lookup_putNode_self _ _ _ _ heqp⟩
          next e heqp => cases hrun
      next heq => cases hrun
    | createFile q c => simp [editsPath] at hop
    | createDirectory q => simp [editsPath] at hop
    | writeFile q c => simp [editsPath] at hop
    | deleteNode q => simp [editsPath] at hop
    | rename q1 q2 => simp [editsPath] at hop
    | undo q => simp [editsPath] at hop
  obtain ⟨hne, hh, hl2⟩ := key
  exact undo_after_record s2 p s.history c0 hne hh hl2

theorem claim_c3_witness :
    ∃ s3, teUndo ⟨Node.dir [("a", Node.file "a = x;")],
        [(["a"], "a = null;")]⟩ ["a"] = .ok s3 ∧
      readFile s3.tree ["a"] = .ok "a = null;" ∧
      teUndo s3 ["a"] = .error .NoHistory :=
  claim_c3_undo_single_edit ⟨Node.dir [("a", Node.file "a = null;")], []⟩
    ["a"] (MutOp.strReplace ["a"] "null" "x") "a = null;"
    ⟨Node.dir [("a", Node.file "a = x;")], [(["a"], "a = null;")]⟩ rfl rfl rfl


theorem formatStrReplaceMessage_congr (a1 a2 : RawArgs)
    (hc : a1.command = a2.command) (hp : a1.path = a2.path) :
    formatStrReplaceMessage a1 = formatStrReplaceMessage a2 := by
  cases a1
  cases a2
  simp only at hc hp
  subst hc
  subst hp
  simp [formatStrReplaceMessage]

theorem formatFileManagerMessage_congr (a1 a2 : RawArgs)
    (hc : a1.command = a2.command) (hp : a1.path = a2.path)
    (hn : a1.new_path = a2.new_path) :
    formatFileManagerMessage a1 = formatFileManagerMessage a2 := by
  cases a1
  cases a2
  simp only at hc hp hn
  subst hc
  subst hp
  subst hn
  simp [formatFileManagerMessage]

/-- C8: `formatToolMessage` depends only on the invocation's `toolName` and
on `args.command`, `args.path`, `args.new_path`: two invocations agreeing on
those four values (in particular on whether `args` is present) produce the
identical message, whatever their `state`, `result`, `old_str`, `new_str`,
`file_text`, `insert_line`, or `view_range`. -/
theorem claim_c8_message_projection_invariance (i1 i2 : ToolInvocation)
    (hname : i1.toolName = i2.toolName)
    (hcmd : Option.map RawArgs.command i1.args = Option.map RawArgs.command i2.args)
    (hpath : Option.map RawArgs.path i1.args = Option.map RawArgs.path i2.args)
    (hnp : Option.map RawArgs.new_path i1.args = Option.map RawArgs.new_path i2.args) :
    formatToolMessage i1 = formatToolMessage i2 := by
  cases h1 : i1.args with
  | none =>
    cases h2 : i2.args with
    | none => simp [formatToolMessage, h1, h2, hname]
    | some a2 => rw [h1, h2] at hcmd; simp at hcmd
  | some a1 =>
    cases h2 : i2.args with
    | none => rw [h1, h2] at hcmd; simp at hcmd
    | some a2 =>
      rw [h1, h2] at hcmd hpath hnp
      simp only [Option.map_some', Option.some_inj] at hcmd hpath hnp
      simp only [formatToolMessage, h1, h2, hname]
      by_cases ht : i2.toolName = "str_replace_editor"
      · simp only [ht, if_true, if_pos]
        exact formatStrReplaceMessage_congr a1 a2 hcmd hpath
      · by_cases ht2 : i2.toolName = "file_manager"
        · simp only [ht, ht2, if_false, if_true, if_neg, if_pos]
          exact formatFileManagerMessage_congr a1 a2 hcmd hpath hnp
        · simp [ht, ht2]

theorem claim_c8_witness :
    formatToolMessage ⟨"str_replace_editor", InvState.call,
        some ⟨some "str_replace", some "App.jsx", none, none, none,
          some "a", none, none⟩, none⟩ =
      formatToolMessage ⟨"str_replace_editor", InvState.result,
        some ⟨some "str_replace", some "App.jsx", some "t", some 3,
          some "n", some "b", some (1, 2), none⟩, some "done"⟩ :=
  claim_c8_message_projection_invariance _ _ rfl rfl rfl rfl

/-- C9: whenever `args` is absent, or the tool name is neither
`str_replace_editor` nor `file_manager`, `formatToolMessage` returns the tool
name split on underscores with each word's first character uppercased and the
words joined by single spaces; being a total function it never throws and
always returns a string. -/
theorem claim_c9_fallback_title_case (i : ToolInvocation)
    (h : i.args = none ∨
      (i.toolName ≠ "str_replace_editor" ∧ i.toolName ≠ "file_manager")) :
    formatToolMessage i =
      String.intercalate " "
        ((splitChar '_' i.toolName.data).map (fun w => capFirst ⟨w⟩)) := by
  rcases h with h | ⟨h1, h2⟩
  · simp [formatToolMessage, h, formatFallbackMessage]
  · cases ha : i.args with
    | none => simp [formatToolMessage, ha, formatFallbackMessage]
    | some a => simp [formatToolMessage, ha, h1, h2, formatFallbackMessage]

theorem claim_c9_witness :
    formatToolMessage ⟨"str_replace_editor", InvState.call, none, none⟩ =
      "Str Replace Editor" := by
  rw [claim_c9_fallback_title_case
    ⟨"str_replace_editor", InvState.call, none, none⟩ (Or.inl rfl)]
  rfl

/-- C10: `ToolInvocationBadge` renders as completed precisely when
`state = "result"` and `result` is defined; in every other case — including
`state = "result"` with an undefined `result` — it renders the in-progress
variant with the spinner and the `In progress:` aria-label. -/
theorem claim_c10_badge_completion (i : ToolInvocation) :
    ((renderBadge i).complete = true ↔
      (i.state = InvState.result ∧ i.result ≠ none)) ∧
    ((renderBadge i).complete = false →
      (renderBadge i).spinner = true ∧
      (renderBadge i).ariaLabel = "In progress: " ++ formatToolMessage i) := by
  constructor
  · cases hs : i.state <;> cases hr : i.result <;>
      simp [renderBadge, hs, hr]
  · intro h
    cases hs : i.state <;> cases hr : i.result <;>
      simp [renderBadge, hs, hr] at h ⊢

theorem claim_c10_witness :
    (renderBadge ⟨"bundle_tool", InvState.result, none, none⟩).spinner = true ∧
    (renderBadge ⟨"bundle_tool", InvState.result, none, none⟩).ariaLabel =
      "In progress: " ++
        formatToolMessage ⟨"bundle_tool", InvState.result, none, none⟩ :=
  (claim_c10_badge_completion ⟨"bundle_tool", InvState.result, none, none⟩).2 rfl
